import Mathlib

/-!
Package `tag`: groups of key/value tags and their propagation through a context.

A shallow embedding of `tag.go` and `context.go`.

* A Go string is a Lean `String`; `<` on both is the lexicographic order.
* A Go `map[string]tag` is a reference to a map object.  Map objects live in a
  `Heap`; a reference is `Option Nat`, with `none` for the nil map.  The
  contents of a map object are an association list with pairwise distinct
  keys.  The order of its entries stands for the order in which a `range`
  loop happens to visit the map; every theorem is stated for all heaps, hence
  for every such order.
* A `Group` is a struct holding one map reference, so copying a `Group`
  copies the reference and shares the map object.
* A function that can panic returns `Option`; `none` is the run-time panic
  (`assignment to entry in nil map`).
-/

namespace Tag

/-- A tag is a simple key value pair. -/
structure tag where
  Key : String
  Value : String
deriving DecidableEq, Repr

/-- The zero value of the struct `tag`, which a map read yields for an absent key. -/
def tag.zero : tag := ⟨"", ""⟩

/-- The contents of one `map[string]tag` object. -/
abbrev TagMap := AList (fun _ : String => tag)

/-- The contents of one `map[string]string` object. -/
abbrev StrMap := AList (fun _ : String => String)

/-- Dict is a map of key/value pairs for creating tags; `none` is the nil map. -/
abbrev Dict := Option StrMap

/-- The store of `map[string]tag` objects: `cell a` is the object at address
`a`, and `next` is the first address that has not been handed out by `make`. -/
structure Heap where
  next : Nat
  cell : Nat → TagMap

/-- A reference to a `map[string]tag` object; `none` is the nil map. -/
abbrev MapRef := Option Nat

/-- The entries of the map behind a reference; the nil map reads as empty. -/
def Heap.deref (h : Heap) : MapRef → TagMap
  | none => ∅
  | some a => h.cell a

/-- Go `make(map[string]tag)` / the literal `map[string]tag{}`: a fresh, empty map object. -/
def Heap.make (h : Heap) : MapRef × Heap :=
  (some h.next, ⟨h.next + 1, Function.update h.cell h.next ∅⟩)

/-- Go `m[key] = t`: panics on the nil map, otherwise inserts or overwrites in place. -/
def Heap.assign (h : Heap) (m : MapRef) (key : String) (t : tag) : Option Heap :=
  match m with
  | none => none
  | some a => some ⟨h.next, Function.update h.cell a ((h.cell a).insert key t)⟩

/-- Go `t, ok := m[key]`: the zero tag and `false` for an absent key (also on the nil map). -/
def Heap.access2 (h : Heap) (m : MapRef) (key : String) : tag × Bool :=
  match (h.deref m).lookup key with
  | none => (tag.zero, false)
  | some t => (t, true)

/-- Go `t := m[key]`: the zero tag for an absent key. -/
def Heap.access1 (h : Heap) (m : MapRef) (key : String) : tag :=
  (h.access2 m key).1

/-- Group is a container for multiple flags: a struct whose only field is a map reference. -/
structure Group where
  tags : MapRef
deriving DecidableEq, Repr

/-- Go `range l` on a `Dict`: its entries in the order of the visit; ranging over the
nil map visits nothing. -/
def Dict.entries (d : Dict) : List (Sigma fun _ : String => String) :=
  match d with
  | none => []
  | some s => s.entries

/-- The body of the loop of `NewGroup`, run over the entries of the seed in `range` order. -/
def NewGroup.loop (g : Group) : List (Sigma fun _ : String => String) → Heap → Option Heap
  | [], h => some h
  | ⟨k, v⟩ :: rest, h =>
    match h.assign g.tags k ⟨k, v⟩ with
    | none => none
    | some h1 => NewGroup.loop g rest h1

/-- NewGroup returns a group of tags built from the seed `l` (ranging over a nil `Dict`
visits nothing). -/
def NewGroup (l : Dict) (h : Heap) : Option (Group × Heap) :=
  let (r, h0) := h.make
  let g : Group := ⟨r⟩
  match NewGroup.loop g l.entries h0 with
  | none => none
  | some h1 => some (g, h1)

/-- Add adds a new tag to the group, overwriting the value of a key that already exists. -/
def Group.Add (g : Group) (key value : String) (h : Heap) : Option Heap :=
  h.assign g.tags key ⟨key, value⟩

/-- Addf is like Add, with the value computed by the formatting function `sprintf`
(Go `fmt.Sprintf`, a collaborator outside the package) from the format and arguments. -/
def Group.Addf {Arg : Type} (sprintf : String → List Arg → String)
    (g : Group) (key format : String) (args : List Arg) (h : Heap) : Option Heap :=
  h.assign g.tags key ⟨key, sprintf format args⟩

/-- Get returns the value of the tag with the given key, or the empty string. -/
def Group.Get (g : Group) (key : String) (h : Heap) : String :=
  let (t, ok) := h.access2 g.tags key
  if !ok then "" else t.Value

/-- Lookup returns the value of the tag with the given key and whether it was found. -/
def Group.Lookup (g : Group) (key : String) (h : Heap) : String × Bool :=
  let (t, ok) := h.access2 g.tags key
  if !ok then ("", false) else (t.Value, true)

/-- Map returns the tags of the group flattened into a fresh `map[string]string`. -/
def Group.Map (g : Group) (h : Heap) : StrMap :=
  (h.deref g.tags).entries.foldl (fun hash e => hash.insert e.2.Key e.2.Value) ∅

/-- The body of the loop of `Merge`, run over the entries of `other` in `range` order. -/
def Group.Merge.loop (g : Group) : List (Sigma fun _ : String => tag) → Heap → Option Heap
  | [], h => some h
  | ⟨_, t⟩ :: rest, h =>
    match h.assign g.tags t.Key t with
    | none => none
    | some h1 => Group.Merge.loop g rest h1

/-- Merge adds the tags from the provided group to the existing group, overwriting
tags whose keys already exist.  The loop visits the entries that `other` has when it
starts, each once. -/
def Group.Merge (g other : Group) (h : Heap) : Option Heap :=
  Group.Merge.loop g (h.deref other.tags).entries h

/-- Go `sort.Strings`: sorts a slice of strings in increasing order. -/
def sortStrings (keys : List String) : List String :=
  keys.insertionSort (· ≤ ·)

/-- Slice returns the tags of the group flattened into `[key1, value1, key2, value2, ...]`,
sorted by key. -/
def Group.Slice (g : Group) (h : Heap) : List String :=
  let keys := (h.deref g.tags).entries.foldl (fun keys e => keys ++ [e.1]) []
  let keys := sortStrings keys
  keys.foldl (fun slice key =>
    let t := h.access1 g.tags key
    (slice ++ [t.Key]) ++ [t.Value]) []

/-- A Go `context.Context`, as far as this package can observe it: the chain of
derivations from `context.Background()`.  The key `groupKey` has the unexported
type `contextKey`, so only `contextWithGroup` binds a value under it, and that
value is always a `Group`; every other derivation (a value under a key of another
package, a deadline, a cancellation) is a `foreign` link. -/
inductive Context where
  | background : Context
  | withValue (parent : Context) (g : Group) : Context
  | foreign (parent : Context) (id : Nat) : Context
deriving DecidableEq, Repr

/-- Go `ctx.Value(groupKey)`: the `Group` bound nearest to `ctx` up the chain, or
`none` for the nil interface value when nothing is bound. -/
def Context.Value : Context → Option Group
  | .background => none
  | .withValue _ g => some g
  | .foreign parent _ => parent.Value

/-- Go `contextWithGroup`: `context.WithValue(ctx, groupKey, g)`. -/
def contextWithGroup (ctx : Context) (g : Group) : Context :=
  .withValue ctx g

/-- FromContext returns the tag Group stored on the context, or a new, empty Group. -/
def FromContext (ctx : Context) (h : Heap) : Option (Group × Heap) :=
  match ctx.Value with
  | none => NewGroup none h
  | some g => some (g, h)

/-- WithTag returns a copy of the context with a new tag added to the tag Group. -/
def WithTag (ctx : Context) (key value : String) (h : Heap) : Option (Context × Heap) :=
  match ctx.Value with
  | none =>
    match NewGroup (some (AList.singleton key value)) h with
    | none => none
    | some (g, h1) => some (contextWithGroup ctx g, h1)
  | some g =>
    match g.Add key value h with
    | none => none
    | some h1 => some (contextWithGroup ctx g, h1)

/-- WithGroup returns a copy of the context with the tags in the Group added to the
context: bound as-is when the context has no Group, merged into the existing Group
otherwise. -/
def WithGroup (ctx : Context) (g : Group) (h : Heap) : Option (Context × Heap) :=
  match ctx.Value with
  | none => some (contextWithGroup ctx g, h)
  | some curr =>
    match curr.Merge g h with
    | none => none
    | some h1 => some (contextWithGroup ctx curr, h1)

/-- The heap of a program that has not made any map yet. -/
def Heap.init : Heap := ⟨0, fun _ => ∅⟩

/-- Every entry of the map is stored under the key that its tag carries. -/
def KeyConsistent (m : TagMap) : Prop :=
  ∀ k t, m.lookup k = some t → t.Key = k

/-- No `Group` is bound anywhere up the chain of the context. -/
def Context.Unbound : Context → Prop
  | .background => True
  | .withValue _ _ => False
  | .foreign parent _ => parent.Unbound

/-- Go `l[k]` with the comma-ok reading, on a `Dict`: nothing on the nil map. -/
def Dict.lookup (d : Dict) (k : String) : Option String :=
  match d with
  | none => none
  | some s => s.lookup k

/-- The map obtained from `m` by the assignments `m[p.1] = p.2`, for `p` along `l`. -/
def insertAll (l : List (String × tag)) (m : TagMap) : TagMap :=
  l.foldl (fun acc p => acc.insert p.1 p.2) m

/-- The seed of the examples of the package: `Dict{"env": "prod", "user_id": ""}`. -/
def exDict : Dict :=
  some ((AList.singleton "env" "prod").insert "user_id" "")

/-- A heap with one map object, at address 0, holding `env=prod` and `user_id=`
(what `NewGroup(exDict)` builds from the initial heap). -/
def exHeap : Heap :=
  ⟨1, fun _ => (AList.singleton "env" ⟨"env", "prod"⟩).insert "user_id" ⟨"user_id", ""⟩⟩

/-- The group whose tags are the map object at address 0. -/
def exGroup : Group := ⟨some 0⟩

/-- The flat sequence `[a1, b1, a2, b2, ...]` of a list of pairs. -/
def flatPairs : List (String × String) → List String
  | [] => []
  | (a, b) :: rest => a :: b :: flatPairs rest

/-- The assignments `g.tags[t.Key] = t` that `Merge` makes for the entries of a map,
in `range` order. -/
def assignments (m : TagMap) : List (String × tag) :=
  m.entries.map fun e => (e.2.Key, e.2)

/-- A second map object, at address 1 of a heap that also holds the example map at
address 0: `status=500` and `service=database`. -/
def exHeap2 : Heap :=
  ⟨2, fun a =>
    if a = 0 then (AList.singleton "env" ⟨"env", "prod"⟩).insert "status" ⟨"status", "200"⟩
    else (AList.singleton "status" ⟨"status", "500"⟩).insert "service" ⟨"service", "database"⟩⟩

/-- The group whose tags are the map object at address 1. -/
def exOther : Group := ⟨some 1⟩

/-- A context that carries the example group, below a link made by another package. -/
def exCtx : Context := .foreign (.withValue .background exGroup) 7

/-- A context on which no Group was ever bound. -/
def exUnbound : Context := .foreign .background 7

/-- The zero value `Group{}` of the struct: its tag map is nil. -/
def Group.zero : Group := ⟨none⟩

/-- The example heap with the two tags of its map stored in the other order. -/
def exHeapSwapped : Heap :=
  ⟨1, fun _ => (AList.singleton "user_id" ⟨"user_id", ""⟩).insert "env" ⟨"env", "prod"⟩⟩

/-- Addf as the specification words it: compute `value` by formatting `args` according
to `format`, then behave as `Add(key, value)`. -/
def Group.Addf_spec {Arg : Type} (sprintf : String → List Arg → String)
    (g : Group) (key format : String) (args : List Arg) (h : Heap) : Option Heap :=
  let value := sprintf format args
  g.Add key value h

/-- A stand-in for the formatting function on integer arguments that agrees with
`fmt.Sprintf` on the call `("%d", 500)` of the example. -/
def exSprintf (format : String) (args : List Int) : String :=
  if format = "%d" ∧ args = [500] then "500" else format

/-- The map `m1` has every key of the map `m`, hence at least as many tags. -/
def Grows (m m1 : TagMap) : Prop :=
  (∀ k, k ∈ m → k ∈ m1) ∧ m.keys.length ≤ m1.keys.length

/-- Every map object of the heap is key-consistent. -/
def Heap.Consistent (h : Heap) : Prop :=
  ∀ r : MapRef, KeyConsistent (h.deref r)

/-- The heaps that a program reaches from the initial heap through the public API of
the package, with arbitrary arguments. -/
inductive Reachable : Heap → Prop where
  | init : Reachable Heap.init
  | newGroup {h h1 : Heap} {d : Dict} {g : Group} :
      Reachable h → NewGroup d h = some (g, h1) → Reachable h1
  | add {h h1 : Heap} {g : Group} {key value : String} :
      Reachable h → g.Add key value h = some h1 → Reachable h1
  | addf {Arg : Type} {sprintf : String → List Arg → String} {h h1 : Heap} {g : Group}
      {key format : String} {args : List Arg} :
      Reachable h → g.Addf sprintf key format args h = some h1 → Reachable h1
  | merge {h h1 : Heap} {g other : Group} :
      Reachable h → g.Merge other h = some h1 → Reachable h1
  | fromContext {h h1 : Heap} {ctx : Context} {g : Group} :
      Reachable h → FromContext ctx h = some (g, h1) → Reachable h1
  | withTag {h h1 : Heap} {ctx c1 : Context} {key value : String} :
      Reachable h → WithTag ctx key value h = some (c1, h1) → Reachable h1
  | withGroup {h h1 : Heap} {ctx c1 : Context} {g : Group} :
      Reachable h → WithGroup ctx g h = some (c1, h1) → Reachable h1

/-! ## Map objects and the heap -/

theorem Heap.deref_assign {h h1 : Heap} {m : MapRef} {key : String} {t : tag}
    (e : h.assign m key t = some h1) (r : MapRef) :
    h1.deref r = if r = m then (h.deref m).insert key t else h.deref r := by
  cases m with
  | none => simp [Heap.assign] at e
  | some a =>
    simp only [Heap.assign, Option.some.injEq] at e
    subst e
    cases r with
    | none => simp [Heap.deref]
    | some b =>
      by_cases hb : b = a
      · subst hb; simp [Heap.deref]
      · simp [Heap.deref, Function.update_noteq hb, hb]

theorem Heap.assign_isSome (h : Heap) {m : MapRef} (hm : m ≠ none) (key : String) (t : tag) :
    ∃ h1, h.assign m key t = some h1 := by
  cases m with
  | none => exact absurd rfl hm
  | some a => exact ⟨_, rfl⟩

theorem insertAll_nil (m : TagMap) : insertAll [] m = m := rfl

theorem insertAll_cons (p : String × tag) (l : List (String × tag)) (m : TagMap) :
    insertAll (p :: l) m = insertAll l (m.insert p.1 p.2) := rfl

theorem lookup_insertAll_of_not_mem (l : List (String × tag)) (m : TagMap) (k : String)
    (hk : k ∉ l.map Prod.fst) : (insertAll l m).lookup k = m.lookup k := by
  induction l generalizing m with
  | nil => rfl
  | cons p l ih =>
    simp only [List.map_cons, List.mem_cons, not_or] at hk
    rw [insertAll_cons, ih _ hk.2, AList.lookup_insert_ne hk.1]

theorem lookup_insertAll_of_mem (l : List (String × tag)) (hnd : (l.map Prod.fst).Nodup)
    (m : TagMap) (p : String × tag) (hp : p ∈ l) : (insertAll l m).lookup p.1 = some p.2 := by
  induction l generalizing m with
  | nil => simp at hp
  | cons q l ih =>
    simp only [List.map_cons, List.nodup_cons] at hnd
    rw [insertAll_cons]
    rcases List.mem_cons.1 hp with rfl | hp
    · rw [lookup_insertAll_of_not_mem _ _ _ hnd.1, AList.lookup_insert]
    · exact ih hnd.2 _ hp

theorem mem_insertAll (l : List (String × tag)) (m : TagMap) (k : String) :
    k ∈ insertAll l m ↔ k ∈ l.map Prod.fst ∨ k ∈ m := by
  induction l generalizing m with
  | nil => simp [insertAll_nil]
  | cons p l ih =>
    rw [insertAll_cons, ih, AList.mem_insert, List.map_cons, List.mem_cons]
    tauto

/-! ## Reading a group -/

theorem Group.Lookup_eq (g : Group) (key : String) (h : Heap) :
    g.Lookup key h =
      match (h.deref g.tags).lookup key with
      | none => ("", false)
      | some t => (t.Value, true) := by
  unfold Group.Lookup Heap.access2
  cases (h.deref g.tags).lookup key <;> rfl

theorem Group.Get_eq (g : Group) (key : String) (h : Heap) :
    g.Get key h =
      match (h.deref g.tags).lookup key with
      | none => ""
      | some t => t.Value := by
  unfold Group.Get Heap.access2
  cases (h.deref g.tags).lookup key <;> rfl

theorem Group.Lookup_congr {g g1 : Group} {h h1 : Heap} (k : String)
    (e : (h.deref g.tags).lookup k = (h1.deref g1.tags).lookup k) :
    g.Lookup k h = g1.Lookup k h1 := by
  rw [Group.Lookup_eq, Group.Lookup_eq, e]

/-! ## Building a group -/

theorem NewGroup_loop_eq (a : Nat) (es : List (Sigma fun _ : String => String)) (h : Heap) :
    NewGroup.loop ⟨some a⟩ es h =
      some ⟨h.next, Function.update h.cell a
        (insertAll (es.map fun e => (e.1, (⟨e.1, e.2⟩ : tag))) (h.cell a))⟩ := by
  induction es generalizing h with
  | nil => simp [NewGroup.loop, insertAll_nil]
  | cons e es ih =>
    obtain ⟨k, v⟩ := e
    simp only [NewGroup.loop, Heap.assign, ih, List.map_cons, insertAll_cons,
      Function.update_same, Function.update_idem]

theorem NewGroup_eq (l : Dict) (h : Heap) :
    NewGroup l h =
      some (⟨some h.next⟩, ⟨h.next + 1, Function.update h.cell h.next
        (insertAll (l.entries.map fun e => (e.1, (⟨e.1, e.2⟩ : tag))) ∅)⟩) := by
  unfold NewGroup
  simp only [Heap.make, NewGroup_loop_eq, Function.update_same, Function.update_idem]

theorem NewGroup_deref (l : Dict) (h : Heap) :
    ∃ g h1, NewGroup l h = some (g, h1) ∧ g.tags = some h.next ∧
      h1.deref g.tags = insertAll (l.entries.map fun e => (e.1, (⟨e.1, e.2⟩ : tag))) ∅ ∧
      ∀ a, a ≠ h.next → h1.cell a = h.cell a := by
  refine ⟨_, _, NewGroup_eq l h, rfl, ?_, ?_⟩
  · simp [Heap.deref]
  · intro a ha
    simp [Function.update_noteq ha]

theorem Dict.entries_keys_nodup (d : Dict) :
    ((d.entries.map fun e => (e.1, (⟨e.1, e.2⟩ : tag))).map Prod.fst).Nodup := by
  cases d with
  | none => simp [Dict.entries]
  | some s =>
    have := s.keys_nodup
    simpa [Dict.entries, AList.keys, List.keys, Function.comp_def] using this

theorem lookup_seed (d : Dict) (k : String) :
    (insertAll (d.entries.map fun e => (e.1, (⟨e.1, e.2⟩ : tag))) ∅).lookup k =
      (d.lookup k).map fun v => (⟨k, v⟩ : tag) := by
  cases hk : d.lookup k with
  | none =>
    rw [lookup_insertAll_of_not_mem, AList.lookup_empty]
    · rfl
    · cases d with
      | none => simp [Dict.entries]
      | some s =>
        have hk1 : k ∉ s := AList.lookup_eq_none.1 hk
        rw [AList.mem_keys] at hk1
        simpa [Dict.entries, AList.keys, List.keys, Function.comp_def] using hk1
  | some v =>
    cases d with
    | none => simp [Dict.lookup] at hk
    | some s =>
      have hmem : (⟨k, v⟩ : Sigma fun _ : String => String) ∈ s.entries :=
        AList.mem_lookup_iff.1 hk
      have := lookup_insertAll_of_mem _ (Dict.entries_keys_nodup (some s)) ∅
        (k, (⟨k, v⟩ : tag)) (List.mem_map.2 ⟨_, hmem, rfl⟩)
      simpa using this

/-! ## Add, Get and Lookup -/

/-- C3: for every Group `g` whose tag map is allocated, every key and value, `Add`
completes, and afterwards `Get` returns the value and `Lookup` returns it with `true`. -/
theorem Add_then_Get_Lookup (g : Group) (key value : String) (h : Heap)
    (hg : g.tags ≠ none) :
    ∃ h1, g.Add key value h = some h1 ∧
      g.Get key h1 = value ∧ g.Lookup key h1 = (value, true) := by
  obtain ⟨h1, e⟩ := h.assign_isSome hg key ⟨key, value⟩
  refine ⟨h1, e, ?_, ?_⟩
  · rw [Group.Get_eq, Heap.deref_assign e, if_pos rfl, AList.lookup_insert]
  · rw [Group.Lookup_eq, Heap.deref_assign e, if_pos rfl, AList.lookup_insert]

/-- Witness of C3: adding `service=database` to the example group. -/
theorem Add_then_Get_Lookup_witness :
    ∃ h1, exGroup.Add "service" "database" exHeap = some h1 ∧
      exGroup.Get "service" h1 = "database" ∧
      exGroup.Lookup "service" h1 = ("database", true) :=
  Add_then_Get_Lookup exGroup "service" "database" exHeap (by decide)

/-- C4: for a key that is not present in the group, `Get` returns the empty string and
`Lookup` returns the empty string with `false`; for a key present with the empty value,
`Lookup` returns the empty string with `true`; and the boolean of `Lookup` is `true`
exactly when the key is present. -/
theorem Get_Lookup_absent (g : Group) (k : String) (h : Heap) :
    (k ∉ h.deref g.tags → g.Get k h = "" ∧ g.Lookup k h = ("", false)) ∧
    (∀ t, (h.deref g.tags).lookup k = some t → t.Value = "" → g.Lookup k h = ("", true)) ∧
    ((g.Lookup k h).2 = true ↔ k ∈ h.deref g.tags) := by
  refine ⟨fun hk => ?_, fun t ht hv => ?_, ?_⟩
  · rw [Group.Get_eq, Group.Lookup_eq, AList.lookup_eq_none.2 hk]
    exact ⟨rfl, rfl⟩
  · rw [Group.Lookup_eq, ht, ← hv]
  · rw [Group.Lookup_eq, ← AList.lookup_isSome]
    cases (h.deref g.tags).lookup k <;> simp

/-- Witness of C4: in the example group `environment` is absent and `user_id` is
present with the empty value. -/
theorem Get_Lookup_absent_witness :
    (exGroup.Get "environment" exHeap = "" ∧ exGroup.Lookup "environment" exHeap = ("", false)) ∧
    exGroup.Lookup "user_id" exHeap = ("", true) :=
  ⟨(Get_Lookup_absent exGroup "environment" exHeap).1 (by decide),
   (Get_Lookup_absent exGroup "user_id" exHeap).2.1 ⟨"user_id", ""⟩ (by decide) rfl⟩

/-- C10: for every seed `d` (the nil mapping included) `NewGroup` completes, and in the
group it returns `Lookup k` is `(d[k], true)` when `k` is a key of `d` and `("", false)`
otherwise; on the nil seed the group has no tags. -/
theorem NewGroup_Lookup (d : Dict) (h : Heap) :
    ∃ g h1, NewGroup d h = some (g, h1) ∧
      (∀ k, g.Lookup k h1 =
        match d.lookup k with
        | some v => (v, true)
        | none => ("", false)) ∧
      (d = none → (h1.deref g.tags).entries = []) := by
  obtain ⟨g, h1, e, -, hd, -⟩ := NewGroup_deref d h
  refine ⟨g, h1, e, fun k => ?_, fun hnil => ?_⟩
  · rw [Group.Lookup_eq, hd, lookup_seed]
    cases d.lookup k <;> rfl
  · subst hnil
    rw [hd]
    rfl

/-! ## Slice -/

theorem flatPairs_length (l : List (String × String)) : (flatPairs l).length = 2 * l.length := by
  induction l with
  | nil => rfl
  | cons p l ih =>
    obtain ⟨a, b⟩ := p
    simp only [flatPairs, List.length_cons, ih]
    omega

theorem flatPairs_append (l r : List (String × String)) :
    flatPairs (l ++ r) = flatPairs l ++ flatPairs r := by
  induction l with
  | nil => rfl
  | cons p l ih =>
    obtain ⟨a, b⟩ := p
    simp [flatPairs, ih]

theorem flatPairs_even (l : List (String × String)) (i : Nat) :
    (flatPairs l)[2 * i]? = l[i]?.map Prod.fst := by
  induction l generalizing i with
  | nil => simp [flatPairs]
  | cons p l ih =>
    obtain ⟨a, b⟩ := p
    cases i with
    | zero => simp [flatPairs]
    | succ i =>
      have e : 2 * (i + 1) = 2 * i + 1 + 1 := by omega
      simp only [flatPairs, e, List.getElem?_cons_succ, ih]

theorem flatPairs_odd (l : List (String × String)) (i : Nat) :
    (flatPairs l)[2 * i + 1]? = l[i]?.map Prod.snd := by
  induction l generalizing i with
  | nil => simp [flatPairs]
  | cons p l ih =>
    obtain ⟨a, b⟩ := p
    cases i with
    | zero => simp [flatPairs]
    | succ i =>
      have e : 2 * (i + 1) + 1 = 2 * i + 1 + 1 + 1 := by omega
      simp only [flatPairs, e, List.getElem?_cons_succ, ih]

theorem foldl_collect_keys (es : List (Sigma fun _ : String => tag)) (init : List String) :
    es.foldl (fun keys e => keys ++ [e.1]) init = init ++ es.map Sigma.fst := by
  induction es generalizing init with
  | nil => simp
  | cons e es ih => simp [ih]

theorem foldl_collect_pairs (f : String → tag) (keys init : List String) :
    keys.foldl (fun slice key => (slice ++ [(f key).Key]) ++ [(f key).Value]) init =
      init ++ flatPairs (keys.map fun key => ((f key).Key, (f key).Value)) := by
  induction keys generalizing init with
  | nil => simp [flatPairs]
  | cons k keys ih =>
    rw [List.foldl_cons, ih, List.map_cons, flatPairs]
    simp

theorem Group.Slice_eq (g : Group) (h : Heap) :
    g.Slice h = flatPairs ((sortStrings (h.deref g.tags).keys).map fun key =>
      ((h.access1 g.tags key).Key, (h.access1 g.tags key).Value)) := by
  unfold Group.Slice
  simp only [foldl_collect_keys, foldl_collect_pairs, List.nil_append]
  rfl

theorem sortStrings_perm (keys : List String) : (sortStrings keys).Perm keys :=
  List.perm_insertionSort _ keys

theorem sortStrings_sorted (keys : List String) : (sortStrings keys).Sorted (· ≤ ·) :=
  List.sorted_insertionSort _ keys

theorem mem_sortStrings {keys : List String} {k : String} : k ∈ sortStrings keys ↔ k ∈ keys :=
  (sortStrings_perm keys).mem_iff

theorem sortStrings_keys_nodup (m : TagMap) : (sortStrings m.keys).Nodup :=
  (sortStrings_perm m.keys).nodup_iff.2 m.keys_nodup

theorem sortStrings_keys_lt (m : TagMap) : (sortStrings m.keys).Sorted (· < ·) :=
  (sortStrings_sorted m.keys).lt_of_le (sortStrings_keys_nodup m)

theorem Group.Slice_length (g : Group) (h : Heap) :
    (g.Slice h).length = 2 * (h.deref g.tags).keys.length := by
  rw [Group.Slice_eq, flatPairs_length, List.length_map, (sortStrings_perm _).length_eq]

theorem Heap.access1_of_keyConsistent {h : Heap} {m : MapRef} (hkc : KeyConsistent (h.deref m))
    {k : String} (hk : k ∈ (h.deref m).keys) :
    ∃ t, (h.deref m).lookup k = some t ∧ h.access1 m k = t ∧ t.Key = k := by
  have hs : ((h.deref m).lookup k).isSome := AList.lookup_isSome.2 (AList.mem_keys.2 hk)
  obtain ⟨t, ht⟩ := Option.isSome_iff_exists.1 hs
  refine ⟨t, ht, ?_, hkc k t ht⟩
  simp [Heap.access1, Heap.access2, ht]

/-- On a key-consistent group the even positions of `Slice` hold the sorted keys. -/
theorem Group.Slice_even (g : Group) (h : Heap) (hkc : KeyConsistent (h.deref g.tags))
    (i : Nat) : (g.Slice h)[2 * i]? = (sortStrings (h.deref g.tags).keys)[i]? := by
  rw [Group.Slice_eq, flatPairs_even, List.getElem?_map]
  cases hi : (sortStrings (h.deref g.tags).keys)[i]? with
  | none => rfl
  | some k =>
    have hk : k ∈ (h.deref g.tags).keys := mem_sortStrings.1 (List.mem_iff_getElem?.2 ⟨i, hi⟩)
    obtain ⟨t, -, e, hkey⟩ := Heap.access1_of_keyConsistent hkc hk
    simp [e, hkey]

/-- The odd positions of `Slice` hold the values stored under the sorted keys. -/
theorem Group.Slice_odd (g : Group) (h : Heap) (i : Nat) :
    (g.Slice h)[2 * i + 1]? =
      (sortStrings (h.deref g.tags).keys)[i]?.map fun k => (h.access1 g.tags k).Value := by
  rw [Group.Slice_eq, flatPairs_odd, List.getElem?_map]
  cases (sortStrings (h.deref g.tags).keys)[i]? <;> rfl

/-! ## Key consistency of the maps that the package builds -/

theorem keyConsistent_empty : KeyConsistent ∅ := by
  intro k t e
  simp at e

theorem keyConsistent_insert {m : TagMap} (hm : KeyConsistent m) (p : tag) :
    KeyConsistent (m.insert p.Key p) := by
  intro k t e
  by_cases hk : k = p.Key
  · subst hk
    rw [AList.lookup_insert] at e
    exact (Option.some.inj e) ▸ rfl
  · rw [AList.lookup_insert_ne hk] at e
    exact hm k t e

theorem keyConsistent_insertAll {m : TagMap} (hm : KeyConsistent m) (l : List (String × tag))
    (hl : ∀ p ∈ l, p.2.Key = p.1) : KeyConsistent (insertAll l m) := by
  induction l generalizing m with
  | nil => exact hm
  | cons p l ih =>
    rw [insertAll_cons]
    refine ih ?_ fun q hq => hl q (List.mem_cons_of_mem _ hq)
    have := keyConsistent_insert hm p.2
    rwa [hl p (List.mem_cons_self _ _)] at this

theorem exHeap_keyConsistent : KeyConsistent (exHeap.deref exGroup.tags) := by
  have h1 := keyConsistent_insert (keyConsistent_insert keyConsistent_empty ⟨"env", "prod"⟩)
    ⟨"user_id", ""⟩
  rwa [AList.insert_empty] at h1

theorem exHeap_keys : (exHeap.deref exGroup.tags).keys = ["user_id", "env"] := by
  decide

/-- C1: in the `Slice` of a Group the keys, the elements at the even indices, are in
strictly increasing lexicographic order: `Slice()[2i] < Slice()[2j]` for all `i < j`. -/
theorem Slice_keys_increasing (g : Group) (h : Heap) (hkc : KeyConsistent (h.deref g.tags))
    (i j : Nat) (hij : i < j) (hj : 2 * j < (g.Slice h).length) :
    (g.Slice h).get ⟨2 * i, by omega⟩ < (g.Slice h).get ⟨2 * j, hj⟩ := by
  have hlen := g.Slice_length h
  have hL : (sortStrings (h.deref g.tags).keys).length = (h.deref g.tags).keys.length :=
    (sortStrings_perm _).length_eq
  have hj1 : j < (sortStrings (h.deref g.tags).keys).length := by omega
  have hi1 : i < (sortStrings (h.deref g.tags).keys).length := by omega
  have ei : (g.Slice h).get ⟨2 * i, by omega⟩ = (sortStrings (h.deref g.tags).keys)[i] := by
    have := g.Slice_even h hkc i
    rw [List.getElem?_eq_getElem (by omega), List.getElem?_eq_getElem hi1] at this
    exact Option.some.inj this
  have ej : (g.Slice h).get ⟨2 * j, hj⟩ = (sortStrings (h.deref g.tags).keys)[j] := by
    have := g.Slice_even h hkc j
    rw [List.getElem?_eq_getElem hj, List.getElem?_eq_getElem hj1] at this
    exact Option.some.inj this
  rw [ei, ej]
  exact List.pairwise_iff_getElem.1 (sortStrings_keys_lt _) i j hi1 hj1 hij

/-- Witness of C1: the two keys of the example group, at the indices 0 and 2. -/
theorem Slice_keys_increasing_witness :
    ∃ hj : 2 * 1 < (exGroup.Slice exHeap).length,
      (exGroup.Slice exHeap).get ⟨2 * 0, by omega⟩ < (exGroup.Slice exHeap).get ⟨2 * 1, hj⟩ :=
  ⟨by rw [Group.Slice_length, exHeap_keys]; decide,
   Slice_keys_increasing exGroup exHeap exHeap_keyConsistent 0 1 (by decide) _⟩

/-- On a key-consistent group a key and a value are neighbours in `Slice`, the key at
an even index, exactly when `Lookup` finds the value under the key. -/
theorem Group.Slice_pair_iff (g : Group) (h : Heap) (hkc : KeyConsistent (h.deref g.tags))
    (k v : String) :
    (∃ i, (g.Slice h)[2 * i]? = some k ∧ (g.Slice h)[2 * i + 1]? = some v) ↔
      g.Lookup k h = (v, true) := by
  constructor
  · rintro ⟨i, h0, h1⟩
    rw [g.Slice_even h hkc] at h0
    rw [g.Slice_odd h, h0] at h1
    have hk : k ∈ (h.deref g.tags).keys := mem_sortStrings.1 (List.mem_iff_getElem?.2 ⟨i, h0⟩)
    obtain ⟨t, ht, e, -⟩ := Heap.access1_of_keyConsistent hkc hk
    simp only [Option.map_some', e, Option.some.injEq] at h1
    rw [Group.Lookup_eq, ht, ← h1]
  · intro hl
    rw [Group.Lookup_eq] at hl
    cases ht : (h.deref g.tags).lookup k with
    | none => simp [ht] at hl
    | some t =>
      simp only [ht, Prod.mk.injEq, and_true] at hl
      have hk : k ∈ (h.deref g.tags).keys :=
        AList.mem_keys.1 (AList.lookup_isSome.1 (by simp [ht]))
      obtain ⟨i, hi⟩ := List.mem_iff_getElem?.1 (mem_sortStrings.2 hk)
      refine ⟨i, by rw [g.Slice_even h hkc, hi], ?_⟩
      rw [g.Slice_odd h, hi]
      simp [Heap.access1, Heap.access2, ht, hl]

/-- C2: the `Slice` of a Group whose map is key-consistent (every Group built through
the public API) lists exactly its tags as consecutive key/value pairs: some index `i`
has `Slice()[2i] = k` and `Slice()[2i+1] = v` if and only if `Lookup(k) = (v, true)`,
and every key of the group occurs at exactly one even index. -/
theorem Slice_lists_tags (g : Group) (h : Heap) (hkc : KeyConsistent (h.deref g.tags)) :
    (∀ k v, (∃ i, (g.Slice h)[2 * i]? = some k ∧ (g.Slice h)[2 * i + 1]? = some v) ↔
      g.Lookup k h = (v, true)) ∧
    (∀ k, k ∈ h.deref g.tags → ∃! i, (g.Slice h)[2 * i]? = some k) := by
  refine ⟨fun k v => Group.Slice_pair_iff g h hkc k v, ?_⟩
  intro k hk
  obtain ⟨i, hi⟩ := List.mem_iff_getElem?.1 (mem_sortStrings.2 (AList.mem_keys.1 hk))
  refine ⟨i, (g.Slice_even h hkc i).trans hi, fun j hj => ?_⟩
  replace hj : (g.Slice h)[2 * j]? = some k := hj
  rw [g.Slice_even h hkc] at hj
  have hjlt : j < (sortStrings (h.deref g.tags).keys).length := by
    by_contra hge
    rw [List.getElem?_eq_none (by omega)] at hj
    simp at hj
  exact List.getElem?_inj hjlt (sortStrings_keys_nodup _) (hj.trans hi.symm)

/-- Witness of C2: the tag `env=prod` of the example group. -/
theorem Slice_lists_tags_witness :
    (∃ i, (exGroup.Slice exHeap)[2 * i]? = some "env" ∧
      (exGroup.Slice exHeap)[2 * i + 1]? = some "prod") ∧
    ∃! i, (exGroup.Slice exHeap)[2 * i]? = some "env" :=
  ⟨((Slice_lists_tags exGroup exHeap exHeap_keyConsistent).1 "env" "prod").2 (by decide),
   (Slice_lists_tags exGroup exHeap exHeap_keyConsistent).2 "env" (by decide)⟩

/-! ## Merge -/

theorem Merge_loop_eq (a : Nat) (es : List (Sigma fun _ : String => tag)) (h : Heap) :
    Group.Merge.loop ⟨some a⟩ es h =
      some ⟨h.next, Function.update h.cell a
        (insertAll (es.map fun e => (e.2.Key, e.2)) (h.cell a))⟩ := by
  induction es generalizing h with
  | nil => simp [Group.Merge.loop, insertAll_nil]
  | cons e es ih =>
    obtain ⟨k, t⟩ := e
    simp only [Group.Merge.loop, Heap.assign, ih, List.map_cons, insertAll_cons,
      Function.update_same, Function.update_idem]

theorem Group.Merge_deref (g other : Group) (h : Heap) (hg : g.tags ≠ none) :
    ∃ h1, g.Merge other h = some h1 ∧ h1.next = h.next ∧ ∀ r : MapRef,
      h1.deref r =
        if r = g.tags then insertAll (assignments (h.deref other.tags)) (h.deref g.tags)
        else h.deref r := by
  obtain ⟨m⟩ := g
  cases m with
  | none => exact absurd rfl hg
  | some a =>
    refine ⟨_, Merge_loop_eq a _ h, rfl, fun r => ?_⟩
    cases r with
    | none => simp [Heap.deref]
    | some b =>
      by_cases hb : b = a
      · subst hb; simp [Heap.deref, assignments]
      · simp [Heap.deref, Function.update_noteq hb, hb]

theorem Group.Merge_of_empty (g other : Group) (h : Heap)
    (he : (h.deref other.tags).entries = []) : g.Merge other h = some h := by
  unfold Group.Merge
  rw [he]
  rfl

theorem assignments_of_keyConsistent {m : TagMap} (hm : KeyConsistent m) :
    assignments m = m.entries.map fun e => (e.1, e.2) := by
  unfold assignments
  refine List.map_congr_left fun e he => ?_
  obtain ⟨k, t⟩ := e
  have : t.Key = k := hm k t (AList.mem_lookup_iff.2 he)
  simp [this]

theorem assignments_keys {m : TagMap} (hm : KeyConsistent m) :
    (assignments m).map Prod.fst = m.keys := by
  rw [assignments_of_keyConsistent hm]
  simp [AList.keys, List.keys, Function.comp_def]

/-- Merging a key-consistent map into `m0`: its entries win, the rest of `m0` is kept. -/
theorem lookup_insertAll_assignments {m : TagMap} (hm : KeyConsistent m) (m0 : TagMap)
    (k : String) :
    (insertAll (assignments m) m0).lookup k =
      match m.lookup k with
      | some t => some t
      | none => m0.lookup k := by
  cases ht : m.lookup k with
  | none =>
    have hk : k ∉ (assignments m).map Prod.fst := by
      rw [assignments_keys hm, ← AList.mem_keys]
      exact AList.lookup_eq_none.1 ht
    exact lookup_insertAll_of_not_mem _ _ _ hk
  | some t =>
    have hmem : (k, t) ∈ assignments m := by
      rw [assignments_of_keyConsistent hm]
      exact List.mem_map.2 ⟨⟨k, t⟩, AList.mem_lookup_iff.1 ht, rfl⟩
    have hnd : ((assignments m).map Prod.fst).Nodup := by
      rw [assignments_keys hm]
      exact m.keys_nodup
    exact lookup_insertAll_of_mem _ hnd m0 (k, t) hmem

theorem keyConsistent_merge {m m0 : TagMap} (hm0 : KeyConsistent m0) :
    KeyConsistent (insertAll (assignments m) m0) := by
  refine keyConsistent_insertAll hm0 _ fun p hp => ?_
  obtain ⟨e, -, rfl⟩ := List.mem_map.1 hp
  rfl

/-- The tags of the receiver after a completed `Merge`, and those of `other`. -/
theorem Group.Merge_lookup {g other : Group} {h h1 : Heap} (e : g.Merge other h = some h1)
    (hkc : KeyConsistent (h.deref other.tags)) (k : String) :
    (h1.deref g.tags).lookup k =
      (match (h.deref other.tags).lookup k with
      | some t => some t
      | none => (h.deref g.tags).lookup k) ∧
    (h1.deref other.tags).lookup k = (h.deref other.tags).lookup k := by
  by_cases hg : g.tags = none
  · have he : (h.deref other.tags).entries = [] := by
      obtain ⟨m⟩ := g
      simp only at hg
      subst hg
      unfold Group.Merge at e
      cases hes : (h.deref other.tags).entries with
      | nil => rfl
      | cons x xs =>
        rw [hes] at e
        simp [Group.Merge.loop, Heap.assign] at e
    rw [Group.Merge_of_empty g other h he] at e
    cases e
    have hnone : (h.deref other.tags).lookup k = none := by
      rw [AList.lookup_eq_none, AList.mem_keys]
      simp [AList.keys, he]
    rw [hnone]
    exact ⟨rfl, rfl⟩
  · obtain ⟨h2, e2, -, hd⟩ := Group.Merge_deref g other h hg
    rw [e2] at e
    cases e
    refine ⟨?_, ?_⟩
    · rw [hd, if_pos rfl, lookup_insertAll_assignments hkc]
    · rw [hd]
      by_cases ho : other.tags = g.tags
      · rw [if_pos ho, lookup_insertAll_assignments hkc, ho]
        cases (h.deref g.tags).lookup k <;> rfl
      · rw [if_neg ho]

/-- C5: for all Groups `g` and `other` (the receiver's map allocated, or `other` empty),
`Merge` completes, and afterwards `g.Lookup(k)` equals `other.Lookup(k)` when `k` is
present in `other` and otherwise the value `g.Lookup(k)` had before the merge; `other`
reads the same before and after. -/
theorem Merge_Lookup (g other : Group) (h : Heap)
    (hg : g.tags ≠ none ∨ (h.deref other.tags).entries = [])
    (hkc : KeyConsistent (h.deref other.tags)) :
    ∃ h1, g.Merge other h = some h1 ∧ ∀ k,
      g.Lookup k h1 = (if k ∈ h.deref other.tags then other.Lookup k h else g.Lookup k h) ∧
      other.Lookup k h1 = other.Lookup k h := by
  have hex : ∃ h1, g.Merge other h = some h1 := by
    rcases hg with hg | he
    · obtain ⟨h1, e, -⟩ := Group.Merge_deref g other h hg
      exact ⟨h1, e⟩
    · exact ⟨h, Group.Merge_of_empty g other h he⟩
  obtain ⟨h1, e⟩ := hex
  refine ⟨h1, e, fun k => ?_⟩
  obtain ⟨hl, ho⟩ := Group.Merge_lookup e hkc k
  refine ⟨?_, Group.Lookup_congr k ho⟩
  rw [Group.Lookup_eq, hl]
  by_cases hk : k ∈ h.deref other.tags
  · rw [if_pos hk, Group.Lookup_eq]
    obtain ⟨t, ht⟩ := Option.isSome_iff_exists.1 (AList.lookup_isSome.2 hk)
    rw [ht]
  · rw [if_neg hk, Group.Lookup_eq, AList.lookup_eq_none.2 hk]

theorem exHeap2_other_keyConsistent : KeyConsistent (exHeap2.deref exOther.tags) := by
  have h1 := keyConsistent_insert (keyConsistent_insert keyConsistent_empty ⟨"status", "500"⟩)
    ⟨"service", "database"⟩
  rwa [AList.insert_empty] at h1

/-- Witness of C5: merging `status=500, service=database` into `env=prod, status=200`. -/
theorem Merge_Lookup_witness :
    ∃ h1, exGroup.Merge exOther exHeap2 = some h1 ∧ ∀ k,
      exGroup.Lookup k h1 =
        (if k ∈ exHeap2.deref exOther.tags then exOther.Lookup k exHeap2
         else exGroup.Lookup k exHeap2) ∧
      exOther.Lookup k h1 = exOther.Lookup k exHeap2 :=
  Merge_Lookup exGroup exOther exHeap2 (Or.inl (by decide)) exHeap2_other_keyConsistent

/-! ## The context helpers -/

theorem Context.Value_of_unbound {ctx : Context} (hu : ctx.Unbound) : ctx.Value = none := by
  induction ctx with
  | background => rfl
  | withValue parent g _ => exact absurd hu id
  | foreign parent id ih => exact ih hu

theorem FromContext_contextWithGroup (ctx : Context) (g : Group) (h : Heap) :
    FromContext (contextWithGroup ctx g) h = some (g, h) := rfl

/-- The group that `NewGroup` returns holds the seed, each value under its key. -/
theorem NewGroup_contents (d : Dict) (h : Heap) :
    ∃ g h1, NewGroup d h = some (g, h1) ∧
      ∀ k, (h1.deref g.tags).lookup k = (d.lookup k).map fun v => (⟨k, v⟩ : tag) := by
  obtain ⟨g, h1, e, -, hd, -⟩ := NewGroup_deref d h
  exact ⟨g, h1, e, fun k => by rw [hd, lookup_seed]⟩

theorem lookup_singleton_seed (k v k1 : String) :
    Dict.lookup (some (AList.singleton k v)) k1 = if k1 = k then some v else none := by
  show AList.lookup k1 (AList.singleton k v : StrMap) = _
  by_cases hk : k1 = k
  · subst hk
    rw [if_pos rfl, ← AList.insert_empty, AList.lookup_insert]
  · rw [if_neg hk, ← AList.insert_empty, AList.lookup_insert_ne hk, AList.lookup_empty]

/-- C6: for every context (whose bound Group, if any, has an allocated map), key and
value, `WithTag` completes and the Group read back from the new context holds exactly
the tags that `FromContext(ctx)` had before the call, with the key set to the value; on
a context with no bound Group it holds the single tag. -/
theorem WithTag_FromContext (ctx : Context) (key value : String) (h : Heap)
    (hb : ∀ g, ctx.Value = some g → g.tags ≠ none) :
    ∃ g0 h0, FromContext ctx h = some (g0, h0) ∧
    ∃ ctx1 h1, WithTag ctx key value h = some (ctx1, h1) ∧
    ∃ g1 h2, FromContext ctx1 h1 = some (g1, h2) ∧
      (∀ k, g1.Lookup k h2 = if k = key then (value, true) else g0.Lookup k h0) ∧
      (ctx.Value = none →
        ∀ k, g1.Lookup k h2 = if k = key then (value, true) else ("", false)) := by
  cases hv : ctx.Value with
  | none =>
    obtain ⟨g0, h0, e0, l0⟩ := NewGroup_contents none h
    obtain ⟨g1, h1, e1, l1⟩ := NewGroup_contents (some (AList.singleton key value)) h
    have key1 : ∀ k, g1.Lookup k h1 = if k = key then (value, true) else ("", false) := by
      intro k
      rw [Group.Lookup_eq, l1, lookup_singleton_seed]
      by_cases hk : k = key
      · simp [hk]
      · simp [hk]
    have key0 : ∀ k, g0.Lookup k h0 = ("", false) := by
      intro k
      rw [Group.Lookup_eq, l0]
      rfl
    refine ⟨g0, h0, by simp [FromContext, hv, e0], contextWithGroup ctx g1, h1,
      by simp [WithTag, hv, e1], g1, h1, rfl, fun k => ?_, fun _ => key1⟩
    rw [key1, key0]
  | some g =>
    obtain ⟨h1, e1⟩ := h.assign_isSome (hb g hv) key ⟨key, value⟩
    refine ⟨g, h, by simp [FromContext, hv], contextWithGroup ctx g, h1,
      by simp [WithTag, hv, Group.Add, e1], g, h1, rfl, fun k => ?_, fun hn => by simp at hn⟩
    rw [Group.Lookup_eq, Heap.deref_assign e1, if_pos rfl]
    by_cases hk : k = key
    · subst hk
      rw [AList.lookup_insert, if_pos rfl]
    · rw [AList.lookup_insert_ne hk, if_neg hk, Group.Lookup_eq]

/-- Witness of C6: adding `service=database` on the context that carries the example
group. -/
theorem WithTag_FromContext_witness :
    ∃ g0 h0, FromContext exCtx exHeap = some (g0, h0) ∧
    ∃ ctx1 h1, WithTag exCtx "service" "database" exHeap = some (ctx1, h1) ∧
    ∃ g1 h2, FromContext ctx1 h1 = some (g1, h2) ∧
      (∀ k, g1.Lookup k h2 = if k = "service" then ("database", true) else g0.Lookup k h0) ∧
      (exCtx.Value = none →
        ∀ k, g1.Lookup k h2 = if k = "service" then ("database", true) else ("", false)) :=
  WithTag_FromContext exCtx "service" "database" exHeap (by decide)

/-- C7: for every context and Group `g` (the map of the Group bound on the context
allocated, or `g` empty), `WithGroup` completes and the Group read back from the new
context has, for every key, the value of the key in `g` if `g` contains it, and
otherwise the value the key had in `FromContext(ctx)` before the call. -/
theorem WithGroup_FromContext (ctx : Context) (g : Group) (h : Heap)
    (hb : ∀ c, ctx.Value = some c → c.tags ≠ none ∨ (h.deref g.tags).entries = [])
    (hkc : KeyConsistent (h.deref g.tags)) :
    ∃ g0 h0, FromContext ctx h = some (g0, h0) ∧
    ∃ ctx1 h1, WithGroup ctx g h = some (ctx1, h1) ∧
    ∃ g1 h2, FromContext ctx1 h1 = some (g1, h2) ∧
      ∀ k, g1.Lookup k h2 =
        if k ∈ h.deref g.tags then g.Lookup k h else g0.Lookup k h0 := by
  cases hv : ctx.Value with
  | none =>
    obtain ⟨g0, h0, e0, l0⟩ := NewGroup_contents none h
    refine ⟨g0, h0, by simp [FromContext, hv, e0], contextWithGroup ctx g, h,
      by simp [WithGroup, hv], g, h, rfl, fun k => ?_⟩
    by_cases hk : k ∈ h.deref g.tags
    · rw [if_pos hk]
    · rw [if_neg hk, Group.Lookup_eq, Group.Lookup_eq, l0, AList.lookup_eq_none.2 hk]
      rfl
  | some curr =>
    have hex : ∃ h1, curr.Merge g h = some h1 := by
      rcases hb curr hv with hc | he
      · obtain ⟨h1, e, -⟩ := Group.Merge_deref curr g h hc
        exact ⟨h1, e⟩
      · exact ⟨h, Group.Merge_of_empty curr g h he⟩
    obtain ⟨h1, e1⟩ := hex
    refine ⟨curr, h, by simp [FromContext, hv], contextWithGroup ctx curr, h1,
      by simp [WithGroup, hv, e1], curr, h1, rfl, fun k => ?_⟩
    rw [Group.Lookup_eq, (Group.Merge_lookup e1 hkc k).1]
    by_cases hk : k ∈ h.deref g.tags
    · obtain ⟨t, ht⟩ := Option.isSome_iff_exists.1 (AList.lookup_isSome.2 hk)
      rw [if_pos hk, Group.Lookup_eq, ht]
    · rw [if_neg hk, Group.Lookup_eq, AList.lookup_eq_none.2 hk]

/-- Witness of C7: binding `status=500, service=database` on a context that carries
`env=prod, status=200`. -/
theorem WithGroup_FromContext_witness :
    ∃ g0 h0, FromContext exCtx exHeap2 = some (g0, h0) ∧
    ∃ ctx1 h1, WithGroup exCtx exOther exHeap2 = some (ctx1, h1) ∧
    ∃ g1 h2, FromContext ctx1 h1 = some (g1, h2) ∧
      ∀ k, g1.Lookup k h2 =
        if k ∈ exHeap2.deref exOther.tags then exOther.Lookup k exHeap2
        else g0.Lookup k h0 :=
  WithGroup_FromContext exCtx exOther exHeap2 (fun _ hc => Or.inl (by cases hc; decide))
    exHeap2_other_keyConsistent

/-- C8: on a context on which no `WithTag`/`WithGroup` was applied anywhere up the
chain, `FromContext` returns an empty Group: its `Map()` has size 0, its `Slice()` is
empty, and `Lookup(k) = ("", false)` for every key. -/
theorem FromContext_unbound (ctx : Context) (h : Heap) (hu : ctx.Unbound) :
    ∃ g h1, FromContext ctx h = some (g, h1) ∧
      (g.Map h1).entries.length = 0 ∧ g.Slice h1 = [] ∧
      ∀ k, g.Lookup k h1 = ("", false) := by
  obtain ⟨g, h1, e, -, hd, -⟩ := NewGroup_deref none h
  have hd1 : h1.deref g.tags = ∅ := hd
  refine ⟨g, h1, by simp [FromContext, Context.Value_of_unbound hu, e], ?_, ?_, fun k => ?_⟩
  · simp [Group.Map, hd1]
  · apply List.eq_nil_of_length_eq_zero
    rw [Group.Slice_length, hd1]
    rfl
  · rw [Group.Lookup_eq, hd1]
    rfl

/-- Witness of C8: a context derived from the background by another package only. -/
theorem FromContext_unbound_witness :
    ∃ g h1, FromContext exUnbound Heap.init = some (g, h1) ∧
      (g.Map h1).entries.length = 0 ∧ g.Slice h1 = [] ∧
      ∀ k, g.Lookup k h1 = ("", false) :=
  FromContext_unbound exUnbound Heap.init (by simp [exUnbound, Context.Unbound])

/-! ## The zero-value Group -/

/-- C9, at the failing inputs: on the zero-value `Group{}` the calls `Add` and `Addf`
panic, `Merge` of a non-empty group into it panics, and after `WithGroup` has bound it
on the background context, `FromContext` hands it back and `WithTag` and a `WithGroup`
of a non-empty group panic. -/
theorem zero_Group_panics :
    Group.zero.Add "env" "prod" Heap.init = none ∧
    Group.zero.Addf (fun f (_ : List Nat) => f) "status" "%d" [500] Heap.init = none ∧
    Group.zero.Merge exGroup exHeap = none ∧
    WithGroup .background Group.zero exHeap
      = some (.withValue .background Group.zero, exHeap) ∧
    FromContext (.withValue .background Group.zero) exHeap = some (Group.zero, exHeap) ∧
    WithTag (.withValue .background Group.zero) "env" "prod" exHeap = none ∧
    WithGroup (.withValue .background Group.zero) exGroup exHeap = none := by
  exact ⟨rfl, rfl, rfl, rfl, rfl, rfl, rfl⟩

/-! ## Groups built through the public API are key-consistent -/

theorem NewGroup_keyConsistent (d : Dict) (h : Heap) :
    ∃ g h1, NewGroup d h = some (g, h1) ∧ KeyConsistent (h1.deref g.tags) := by
  obtain ⟨g, h1, e, -, hd, -⟩ := NewGroup_deref d h
  refine ⟨g, h1, e, ?_⟩
  rw [hd]
  refine keyConsistent_insertAll keyConsistent_empty _ fun p hp => ?_
  obtain ⟨x, -, rfl⟩ := List.mem_map.1 hp
  rfl

theorem Add_keyConsistent {g : Group} {key value : String} {h h1 : Heap}
    (e : g.Add key value h = some h1) (r : MapRef) (hr : KeyConsistent (h.deref r)) :
    KeyConsistent (h1.deref r) := by
  rw [Heap.deref_assign e]
  by_cases hrg : r = g.tags
  · rw [if_pos hrg]
    subst hrg
    exact keyConsistent_insert hr ⟨key, value⟩
  · rwa [if_neg hrg]

theorem Merge_keyConsistent {g other : Group} {h h1 : Heap}
    (e : g.Merge other h = some h1) (r : MapRef) (hr : KeyConsistent (h.deref r)) :
    KeyConsistent (h1.deref r) := by
  by_cases hg : g.tags = none
  · obtain ⟨m⟩ := g
    simp only at hg
    subst hg
    unfold Group.Merge at e
    cases hes : (h.deref other.tags).entries with
    | nil =>
      rw [hes] at e
      cases e
      exact hr
    | cons x xs =>
      rw [hes] at e
      simp [Group.Merge.loop, Heap.assign] at e
  · obtain ⟨h2, e2, -, hd⟩ := Group.Merge_deref g other h hg
    rw [e2] at e
    cases e
    rw [hd]
    by_cases hrg : r = g.tags
    · rw [if_pos hrg]
      subst hrg
      exact keyConsistent_merge hr
    · rwa [if_neg hrg]

/-! ## Map -/

theorem Group.Map_eq (g : Group) (h : Heap) :
    g.Map h = (assignments (h.deref g.tags)).foldl
      (fun hash p => hash.insert p.1 p.2.Value) (∅ : StrMap) := by
  unfold Group.Map assignments
  rw [List.foldl_map]

theorem lookup_foldl_values_of_not_mem (l : List (String × tag)) (m : StrMap) (k : String)
    (hk : k ∉ l.map Prod.fst) :
    (l.foldl (fun hash p => hash.insert p.1 p.2.Value) m).lookup k = m.lookup k := by
  induction l generalizing m with
  | nil => rfl
  | cons p l ih =>
    simp only [List.map_cons, List.mem_cons, not_or] at hk
    rw [List.foldl_cons, ih _ hk.2, AList.lookup_insert_ne hk.1]

theorem lookup_foldl_values_of_mem (l : List (String × tag)) (hnd : (l.map Prod.fst).Nodup)
    (m : StrMap) (p : String × tag) (hp : p ∈ l) :
    (l.foldl (fun hash q => hash.insert q.1 q.2.Value) m).lookup p.1 = some p.2.Value := by
  induction l generalizing m with
  | nil => simp at hp
  | cons q l ih =>
    simp only [List.map_cons, List.nodup_cons] at hnd
    rw [List.foldl_cons]
    rcases List.mem_cons.1 hp with rfl | hp
    · rw [lookup_foldl_values_of_not_mem _ _ _ hnd.1, AList.lookup_insert]
    · exact ih hnd.2 _ hp

theorem length_foldl_values (l : List (String × tag)) (hnd : (l.map Prod.fst).Nodup)
    (m : StrMap) (hm : ∀ p ∈ l, p.1 ∉ m) :
    (l.foldl (fun hash p => hash.insert p.1 p.2.Value) m).entries.length =
      l.length + m.entries.length := by
  induction l generalizing m with
  | nil => simp
  | cons q l ih =>
    simp only [List.map_cons, List.nodup_cons] at hnd
    have hq : q.1 ∉ m := hm q (List.mem_cons_self _ _)
    rw [List.foldl_cons, ih hnd.2, AList.insert_entries_of_neg hq]
    · simp only [List.length_cons]
      omega
    · intro p hp hmem
      rcases (AList.mem_insert m).1 hmem with e | hin
      · exact hnd.1 (e ▸ List.mem_map_of_mem Prod.fst hp)
      · exact hm p (List.mem_cons_of_mem _ hp) hin

/-- On a key-consistent group `Map` holds, under every key of the group, the value of
its tag, and nothing else. -/
theorem Group.Map_lookup (g : Group) (h : Heap) (hkc : KeyConsistent (h.deref g.tags))
    (k : String) : (g.Map h).lookup k = ((h.deref g.tags).lookup k).map tag.Value := by
  rw [Group.Map_eq]
  cases ht : (h.deref g.tags).lookup k with
  | none =>
    have hk : k ∉ (assignments (h.deref g.tags)).map Prod.fst := by
      rw [assignments_keys hkc, ← AList.mem_keys]
      exact AList.lookup_eq_none.1 ht
    rw [lookup_foldl_values_of_not_mem _ _ _ hk]
    rfl
  | some t =>
    have hmem : (k, t) ∈ assignments (h.deref g.tags) := by
      rw [assignments_of_keyConsistent hkc]
      exact List.mem_map.2 ⟨⟨k, t⟩, AList.mem_lookup_iff.1 ht, rfl⟩
    have hnd : ((assignments (h.deref g.tags)).map Prod.fst).Nodup := by
      rw [assignments_keys hkc]
      exact (h.deref g.tags).keys_nodup
    exact lookup_foldl_values_of_mem _ hnd ∅ (k, t) hmem

theorem Group.Map_length (g : Group) (h : Heap) (hkc : KeyConsistent (h.deref g.tags)) :
    (g.Map h).entries.length = (h.deref g.tags).keys.length := by
  have hnd : ((assignments (h.deref g.tags)).map Prod.fst).Nodup := by
    rw [assignments_keys hkc]
    exact (h.deref g.tags).keys_nodup
  rw [Group.Map_eq, length_foldl_values _ hnd ∅ (fun p _ => AList.not_mem_empty p.1)]
  have : (assignments (h.deref g.tags)).length = (h.deref g.tags).keys.length := by
    rw [← assignments_keys hkc, List.length_map]
  simp [this]

/-- C11: for every Group whose map is key-consistent (every Group built through the
public API), `Map()` maps `k` to `v` if and only if `Lookup(k) = (v, true)`. -/
theorem Map_iff_Lookup (g : Group) (h : Heap) (hkc : KeyConsistent (h.deref g.tags))
    (k v : String) : (g.Map h).lookup k = some v ↔ g.Lookup k h = (v, true) := by
  rw [Group.Map_lookup g h hkc, Group.Lookup_eq]
  cases (h.deref g.tags).lookup k <;> simp

/-- Witness of C11: the tag `env=prod` of the example group. -/
theorem Map_iff_Lookup_witness :
    (exGroup.Map exHeap).lookup "env" = some "prod" ↔
      exGroup.Lookup "env" exHeap = ("prod", true) :=
  Map_iff_Lookup exGroup exHeap exHeap_keyConsistent "env" "prod"

/-- C12: for every Group whose map is key-consistent (every Group built through the
public API), `len(Slice()) = 2 * len(Map())`. -/
theorem Slice_length_eq_twice_Map_length (g : Group) (h : Heap)
    (hkc : KeyConsistent (h.deref g.tags)) :
    (g.Slice h).length = 2 * (g.Map h).entries.length := by
  rw [Group.Slice_length, Group.Map_length g h hkc]

/-- Witness of C12: the example group, with two tags and a `Slice` of four strings. -/
theorem Slice_length_eq_twice_Map_length_witness :
    (exGroup.Slice exHeap).length = 2 * (exGroup.Map exHeap).entries.length ∧
    (exGroup.Map exHeap).entries.length = 2 :=
  ⟨Slice_length_eq_twice_Map_length exGroup exHeap exHeap_keyConsistent, by decide⟩

theorem exHeap2_keyConsistent : KeyConsistent (exHeap2.deref exGroup.tags) := by
  have h1 := keyConsistent_insert (keyConsistent_insert keyConsistent_empty ⟨"env", "prod"⟩)
    ⟨"status", "200"⟩
  rwa [AList.insert_empty] at h1

theorem exHeapSwapped_keyConsistent : KeyConsistent (exHeapSwapped.deref exGroup.tags) := by
  have h1 := keyConsistent_insert (keyConsistent_insert keyConsistent_empty ⟨"user_id", ""⟩)
    ⟨"env", "prod"⟩
  rwa [AList.insert_empty] at h1

/-! ## Slice and Map depend on the tags only -/

theorem sortStrings_keys_congr {m1 m2 : TagMap} (e : ∀ k, m1.lookup k = m2.lookup k) :
    sortStrings m1.keys = sortStrings m2.keys := by
  have hmem : ∀ k, k ∈ m1.keys ↔ k ∈ m2.keys := by
    intro k
    rw [← AList.mem_keys, ← AList.mem_keys, ← AList.lookup_isSome, ← AList.lookup_isSome, e k]
  have hp : m1.keys.Perm m2.keys :=
    (List.perm_ext_iff_of_nodup m1.keys_nodup m2.keys_nodup).2 hmem
  exact List.eq_of_perm_of_sorted
    (((sortStrings_perm _).trans hp).trans (sortStrings_perm _).symm)
    (sortStrings_sorted _) (sortStrings_sorted _)

/-- Two groups with the same tags have the same `Slice`, whatever the order in which
their maps are visited. -/
theorem Group.Slice_congr {g1 g2 : Group} {h1 h2 : Heap}
    (e : ∀ k, (h1.deref g1.tags).lookup k = (h2.deref g2.tags).lookup k) :
    g1.Slice h1 = g2.Slice h2 := by
  rw [Group.Slice_eq, Group.Slice_eq, sortStrings_keys_congr e]
  have ha : ∀ k, h1.access1 g1.tags k = h2.access1 g2.tags k := by
    intro k
    simp only [Heap.access1, Heap.access2, e k]
  simp only [ha]

theorem Group.Map_congr {g1 g2 : Group} {h1 h2 : Heap}
    (hk1 : KeyConsistent (h1.deref g1.tags)) (hk2 : KeyConsistent (h2.deref g2.tags))
    (e : ∀ k, (h1.deref g1.tags).lookup k = (h2.deref g2.tags).lookup k) (k : String) :
    (g1.Map h1).lookup k = (g2.Map h2).lookup k := by
  rw [Group.Map_lookup g1 h1 hk1, Group.Map_lookup g2 h2 hk2, e k]

/-- Key-consistent groups with the same `Map` hold the same tags. -/
theorem lookup_eq_of_Map_eq {g1 g2 : Group} {h1 h2 : Heap}
    (hk1 : KeyConsistent (h1.deref g1.tags)) (hk2 : KeyConsistent (h2.deref g2.tags))
    (e : ∀ k, (g1.Map h1).lookup k = (g2.Map h2).lookup k) (k : String) :
    (h1.deref g1.tags).lookup k = (h2.deref g2.tags).lookup k := by
  have ek := e k
  rw [Group.Map_lookup g1 h1 hk1, Group.Map_lookup g2 h2 hk2] at ek
  cases ht1 : (h1.deref g1.tags).lookup k with
  | none =>
    cases ht2 : (h2.deref g2.tags).lookup k with
    | none => rfl
    | some t2 => simp [ht1, ht2] at ek
  | some t1 =>
    cases ht2 : (h2.deref g2.tags).lookup k with
    | none => simp [ht1, ht2] at ek
    | some t2 =>
      have hv : t1.Value = t2.Value := by simpa [ht1, ht2] using ek
      have hkey : t1.Key = t2.Key := (hk1 k t1 ht1).trans (hk2 k t2 ht2).symm
      obtain ⟨a1, b1⟩ := t1
      obtain ⟨a2, b2⟩ := t2
      simp only at hv hkey
      rw [hv, hkey]

/-- C13: `Merge` is idempotent: after `g.Merge(other)` has completed, a second
`g.Merge(other)` completes and leaves `g` with the same tags, the same `Map()` and the
same `Slice()`. -/
theorem Merge_idempotent (g other : Group) (h : Heap)
    (hg : g.tags ≠ none ∨ (h.deref other.tags).entries = [])
    (hkg : KeyConsistent (h.deref g.tags)) (hko : KeyConsistent (h.deref other.tags)) :
    ∃ h1, g.Merge other h = some h1 ∧ ∃ h2, g.Merge other h1 = some h2 ∧
      (∀ k, g.Lookup k h2 = g.Lookup k h1) ∧
      (∀ k, (g.Map h2).lookup k = (g.Map h1).lookup k) ∧
      g.Slice h2 = g.Slice h1 := by
  have hex : ∃ h1, g.Merge other h = some h1 ∧ ∃ h2, g.Merge other h1 = some h2 := by
    rcases hg with hg | he
    · obtain ⟨h1, e1, -⟩ := Group.Merge_deref g other h hg
      obtain ⟨h2, e2, -⟩ := Group.Merge_deref g other h1 hg
      exact ⟨h1, e1, h2, e2⟩
    · exact ⟨h, Group.Merge_of_empty g other h he, h, Group.Merge_of_empty g other h he⟩
  obtain ⟨h1, e1, h2, e2⟩ := hex
  have hko1 : KeyConsistent (h1.deref other.tags) := Merge_keyConsistent e1 _ hko
  have hkg1 : KeyConsistent (h1.deref g.tags) := Merge_keyConsistent e1 _ hkg
  have hkg2 : KeyConsistent (h2.deref g.tags) := Merge_keyConsistent e2 _ hkg1
  have hl : ∀ k, (h2.deref g.tags).lookup k = (h1.deref g.tags).lookup k := by
    intro k
    obtain ⟨a1, b1⟩ := Group.Merge_lookup e1 hko k
    obtain ⟨a2, -⟩ := Group.Merge_lookup e2 hko1 k
    rw [a2, b1, a1]
    cases (h.deref other.tags).lookup k <;> rfl
  exact ⟨h1, e1, h2, e2, fun k => Group.Lookup_congr k (hl k),
    Group.Map_congr hkg2 hkg1 hl, Group.Slice_congr hl⟩

/-- Witness of C13: merging `status=500, service=database` twice into
`env=prod, status=200`. -/
theorem Merge_idempotent_witness :
    ∃ h1, exGroup.Merge exOther exHeap2 = some h1 ∧ ∃ h2, exGroup.Merge exOther h1 = some h2 ∧
      (∀ k, exGroup.Lookup k h2 = exGroup.Lookup k h1) ∧
      (∀ k, (exGroup.Map h2).lookup k = (exGroup.Map h1).lookup k) ∧
      exGroup.Slice h2 = exGroup.Slice h1 :=
  Merge_idempotent exGroup exOther exHeap2 (Or.inl (by decide)) exHeap2_keyConsistent
    exHeap2_other_keyConsistent

/-- C19: `Slice` is a function of the contents of the Group only: for two Groups with
key-consistent maps (Groups built through the public API), the `Map()` outputs are equal
if and only if the `Slice()` outputs are equal. -/
theorem Slice_deterministic (g1 g2 : Group) (h1 h2 : Heap)
    (hk1 : KeyConsistent (h1.deref g1.tags)) (hk2 : KeyConsistent (h2.deref g2.tags)) :
    (∀ k, (g1.Map h1).lookup k = (g2.Map h2).lookup k) ↔ g1.Slice h1 = g2.Slice h2 := by
  constructor
  · intro e
    exact Group.Slice_congr (lookup_eq_of_Map_eq hk1 hk2 e)
  · intro e k
    apply Option.ext
    intro v
    rw [Group.Map_lookup g1 h1 hk1, Group.Map_lookup g2 h2 hk2]
    have key : g1.Lookup k h1 = (v, true) ↔ g2.Lookup k h2 = (v, true) := by
      rw [← Group.Slice_pair_iff g1 h1 hk1, ← Group.Slice_pair_iff g2 h2 hk2, e]
    rw [Group.Lookup_eq, Group.Lookup_eq] at key
    cases ht1 : (h1.deref g1.tags).lookup k <;> cases ht2 : (h2.deref g2.tags).lookup k <;>
      simp [ht1, ht2] at key ⊢ <;> exact key

/-- Witness of C19: the example group, and the same tags held in the other visiting
order by a second map object. -/
theorem Slice_deterministic_witness :
    (∀ k, (exGroup.Map exHeap).lookup k = (exGroup.Map exHeapSwapped).lookup k) ↔
      exGroup.Slice exHeap = exGroup.Slice exHeapSwapped :=
  Slice_deterministic exGroup exGroup exHeap exHeapSwapped exHeap_keyConsistent
    exHeapSwapped_keyConsistent

/-! ## Repeated writes, Addf and the frame of Add -/

theorem Group.Add_deref {g : Group} {key value : String} {h h1 : Heap}
    (e : g.Add key value h = some h1) (r : MapRef) :
    h1.deref r = if r = g.tags then (h.deref g.tags).insert key ⟨key, value⟩ else h.deref r :=
  Heap.deref_assign e r

theorem Group.Add_Add (g : Group) (key v1 v2 : String) (h : Heap) :
    (g.Add key v1 h).bind (g.Add key v2) = g.Add key v2 h := by
  obtain ⟨m⟩ := g
  cases m with
  | none => rfl
  | some a =>
    simp only [Group.Add, Heap.assign, Option.some_bind, Function.update_same,
      Function.update_idem, AList.insert_insert]

/-- C14: the most recent value wins.  `Add(k, v1)` followed by `Add(k, v2)` completes in
the very state that `Add(k, v2)` alone produces; and after
`WithTag(WithTag(ctx, k, v1), k, v2)` the Group of the context has `k = v2` and one
entry for `k`. -/
theorem last_write_wins (g : Group) (ctx : Context) (key v1 v2 : String) (h : Heap)
    (hg : g.tags ≠ none) (hb : ∀ c, ctx.Value = some c → c.tags ≠ none) :
    (∃ h1 h2, g.Add key v1 h = some h1 ∧ g.Add key v2 h1 = some h2 ∧
      g.Add key v2 h = some h2) ∧
    (∃ c1 h1, WithTag ctx key v1 h = some (c1, h1) ∧
     ∃ c2 h2, WithTag c1 key v2 h1 = some (c2, h2) ∧
     ∃ g2 h3, FromContext c2 h2 = some (g2, h3) ∧
       g2.Lookup key h3 = (v2, true) ∧ (h3.deref g2.tags).keys.count key = 1) := by
  constructor
  · obtain ⟨h1, e1⟩ := h.assign_isSome hg key ⟨key, v1⟩
    obtain ⟨h2, e2⟩ := h1.assign_isSome hg key ⟨key, v2⟩
    refine ⟨h1, h2, e1, e2, ?_⟩
    have := Group.Add_Add g key v1 v2 h
    rw [show g.Add key v1 h = some h1 from e1, Option.some_bind] at this
    rw [← this]
    exact e2
  · have first : ∃ g1 h1, WithTag ctx key v1 h = some (contextWithGroup ctx g1, h1) ∧
        g1.tags ≠ none := by
      cases hv : ctx.Value with
      | none =>
        obtain ⟨g1, h1, e1, ht, -⟩ := NewGroup_deref (some (AList.singleton key v1)) h
        exact ⟨g1, h1, by simp [WithTag, hv, e1], by simp [ht]⟩
      | some c =>
        obtain ⟨h1, e1⟩ := h.assign_isSome (hb c hv) key ⟨key, v1⟩
        exact ⟨c, h1, by simp [WithTag, hv, Group.Add, e1], hb c hv⟩
    obtain ⟨g1, h1, e1, hg1⟩ := first
    obtain ⟨h2, e2⟩ := h1.assign_isSome hg1 key ⟨key, v2⟩
    have hd : h2.deref g1.tags = (h1.deref g1.tags).insert key ⟨key, v2⟩ := by
      rw [Heap.deref_assign e2, if_pos rfl]
    refine ⟨_, h1, e1, contextWithGroup (contextWithGroup ctx g1) g1, h2,
      by simp [WithTag, contextWithGroup, Context.Value, Group.Add, e2], g1, h2, rfl, ?_, ?_⟩
    · rw [Group.Lookup_eq, hd, AList.lookup_insert]
    · apply List.count_eq_one_of_mem (h2.deref g1.tags).keys_nodup
      rw [hd, ← AList.mem_keys, AList.mem_insert]
      exact Or.inl rfl

/-- Witness of C14: writing `env` twice on the example group and on the context that
carries it. -/
theorem last_write_wins_witness :
    (∃ h1 h2, exGroup.Add "env" "dev" exHeap = some h1 ∧ exGroup.Add "env" "test" h1 = some h2 ∧
      exGroup.Add "env" "test" exHeap = some h2) ∧
    (∃ c1 h1, WithTag exCtx "env" "dev" exHeap = some (c1, h1) ∧
     ∃ c2 h2, WithTag c1 "env" "test" h1 = some (c2, h2) ∧
     ∃ g2 h3, FromContext c2 h2 = some (g2, h3) ∧
       g2.Lookup "env" h3 = ("test", true) ∧ (h3.deref g2.tags).keys.count "env" = 1) :=
  last_write_wins exGroup exCtx "env" "dev" "test" exHeap (by decide) (by decide)

/-- C15: `Addf(k, f, args...)` leaves the Group in exactly the state that `Add(k, s)`
would, for `s` the string that the formatting function returns for `(f, args)`; and with
a formatting function that returns `"500"` for `("%d", 500)`, `Addf("status", "%d", 500)`
on `NewGroup({"env": "prod"})` gives `Slice() = ["env", "prod", "status", "500"]`. -/
theorem Addf_refines_Add {Arg : Type} (sprintf : String → List Arg → String)
    (g : Group) (key format : String) (args : List Arg) (h : Heap) :
    g.Addf sprintf key format args h = g.Addf_spec sprintf key format args h ∧
    g.Addf sprintf key format args h = g.Add key (sprintf format args) h ∧
    (g.tags ≠ none → ∃ h1, g.Addf sprintf key format args h = some h1) ∧
    ∀ a : Arg, sprintf "%d" [a] = "500" →
      ∃ g0 h0 h1, NewGroup (some (AList.singleton "env" "prod")) Heap.init = some (g0, h0) ∧
        g0.Addf sprintf "status" "%d" [a] h0 = some h1 ∧
        g0.Slice h1 = ["env", "prod", "status", "500"] := by
  refine ⟨rfl, rfl, fun hg => h.assign_isSome hg _ _, fun a hs => ?_⟩
  refine ⟨_, _, _, NewGroup_eq _ _, rfl, ?_⟩
  rw [hs]
  simp [Group.Slice, Heap.deref, Heap.init, Dict.entries, insertAll, sortStrings,
    Heap.access1, Heap.access2, AList.insert, AList.singleton, AList.lookup,
    String.le_iff_toList_le]
  decide

/-- Witness of C15: the example of the package, with the stand-in formatting function. -/
theorem Addf_refines_Add_witness :
    ∃ g0 h0 h1, NewGroup (some (AList.singleton "env" "prod")) Heap.init = some (g0, h0) ∧
      g0.Addf exSprintf "status" "%d" [500] h0 = some h1 ∧
      g0.Slice h1 = ["env", "prod", "status", "500"] :=
  (Addf_refines_Add exSprintf exGroup "status" "%d" [500] exHeap).2.2.2 500 (by decide)

/-- C18: `Add` changes only the tag for its key: when the map of the Group is allocated,
`Add(k, v)` completes and `Lookup(k1)` is the same before and after for every key
`k1` other than `k`. -/
theorem Add_frame (g : Group) (key value k1 : String) (h : Heap)
    (hg : g.tags ≠ none) (hne : k1 ≠ key) :
    ∃ h1, g.Add key value h = some h1 ∧ g.Lookup k1 h1 = g.Lookup k1 h := by
  obtain ⟨h1, e⟩ := h.assign_isSome hg key ⟨key, value⟩
  refine ⟨h1, e, Group.Lookup_congr k1 ?_⟩
  rw [Heap.deref_assign e, if_pos rfl, AList.lookup_insert_ne hne]

/-- Witness of C18: adding `service=database` to the example group leaves `env` alone. -/
theorem Add_frame_witness :
    ∃ h1, exGroup.Add "service" "database" exHeap = some h1 ∧
      exGroup.Lookup "env" h1 = exGroup.Lookup "env" exHeap :=
  Add_frame exGroup "service" "database" "env" exHeap (by decide) (by decide)

/-! ## A Group only grows -/

theorem grows_of_subset {m m1 : TagMap} (hs : ∀ k, k ∈ m → k ∈ m1) : Grows m m1 := by
  refine ⟨hs, ?_⟩
  have hsub : m.keys ⊆ m1.keys := fun k hk => AList.mem_keys.1 (hs k (AList.mem_keys.2 hk))
  exact (List.subperm_of_subset m.keys_nodup hsub).length_le

theorem grows_refl (m : TagMap) : Grows m m := grows_of_subset fun _ hk => hk

theorem grows_insert (m : TagMap) (k : String) (t : tag) : Grows m (m.insert k t) :=
  grows_of_subset fun _ hk => (AList.mem_insert m).2 (Or.inr hk)

theorem grows_insertAll (l : List (String × tag)) (m : TagMap) : Grows m (insertAll l m) :=
  grows_of_subset fun k hk => (mem_insertAll l m k).2 (Or.inr hk)

theorem Add_grows {g : Group} {key value : String} {h h1 : Heap}
    (e : g.Add key value h = some h1) (r : MapRef) : Grows (h.deref r) (h1.deref r) := by
  rw [Heap.deref_assign e]
  by_cases hr : r = g.tags
  · rw [if_pos hr, hr]
    exact grows_insert _ _ _
  · rw [if_neg hr]
    exact grows_refl _

/-- A completed `Merge` leaves the heap alone or replaces the map of the receiver by
the map with the assignments made. -/
theorem Group.Merge_cases {g other : Group} {h h1 : Heap} (e : g.Merge other h = some h1) :
    h1 = h ∨ ∀ r : MapRef, h1.deref r =
      if r = g.tags then insertAll (assignments (h.deref other.tags)) (h.deref g.tags)
      else h.deref r := by
  by_cases hg : g.tags = none
  · left
    obtain ⟨m⟩ := g
    simp only at hg
    subst hg
    unfold Group.Merge at e
    cases hes : (h.deref other.tags).entries with
    | nil =>
      rw [hes] at e
      exact (Option.some.inj e).symm
    | cons x xs =>
      rw [hes] at e
      simp [Group.Merge.loop, Heap.assign] at e
  · right
    obtain ⟨h2, e2, -, hd⟩ := Group.Merge_deref g other h hg
    rw [e2] at e
    cases e
    exact hd

theorem Merge_grows {g other : Group} {h h1 : Heap}
    (e : g.Merge other h = some h1) (r : MapRef) : Grows (h.deref r) (h1.deref r) := by
  rcases Group.Merge_cases e with rfl | hd
  · exact grows_refl _
  · rw [hd]
    by_cases hr : r = g.tags
    · rw [if_pos hr, hr]
      exact grows_insertAll _ _
    · rw [if_neg hr]
      exact grows_refl _

/-- C16: a Group only grows.  On a Group `g` whose map is allocated, and on a context
bound to `g`, each of `Add`, `Addf`, `Merge`, `WithTag` and `WithGroup` completes, and
every map object, that of `g` included, has afterwards every key it had before, hence
at least as many tags; the context stays bound to `g`. -/
theorem Group_only_grows {Arg : Type} (sprintf : String → List Arg → String)
    (g other : Group) (ctx : Context) (key value format : String) (args : List Arg)
    (h : Heap) (hg : g.tags ≠ none) (hv : ctx.Value = some g) :
    (∃ h1, g.Add key value h = some h1 ∧ ∀ r, Grows (h.deref r) (h1.deref r)) ∧
    (∃ h1, g.Addf sprintf key format args h = some h1 ∧
      ∀ r, Grows (h.deref r) (h1.deref r)) ∧
    (∃ h1, g.Merge other h = some h1 ∧ ∀ r, Grows (h.deref r) (h1.deref r)) ∧
    (∃ c1 h1, WithTag ctx key value h = some (c1, h1) ∧ c1.Value = some g ∧
      ∀ r, Grows (h.deref r) (h1.deref r)) ∧
    (∃ c1 h1, WithGroup ctx other h = some (c1, h1) ∧ c1.Value = some g ∧
      ∀ r, Grows (h.deref r) (h1.deref r)) := by
  obtain ⟨ha, ea⟩ := h.assign_isSome hg key ⟨key, value⟩
  obtain ⟨hf, ef⟩ := h.assign_isSome hg key ⟨key, sprintf format args⟩
  obtain ⟨hm, em, -⟩ := Group.Merge_deref g other h hg
  refine ⟨⟨ha, ea, Add_grows ea⟩, ⟨hf, ef, Add_grows ef⟩, ⟨hm, em, Merge_grows em⟩,
    ⟨contextWithGroup ctx g, ha, ?_, rfl, Add_grows ea⟩,
    ⟨contextWithGroup ctx g, hm, ?_, rfl, Merge_grows em⟩⟩
  · simp [WithTag, hv, Group.Add, ea]
  · simp [WithGroup, hv, em]

/-- Witness of C16: the example group, the context that carries it, and the group
`status=500, service=database` to merge. -/
theorem Group_only_grows_witness :
    (∃ h1, exGroup.Add "env" "dev" exHeap2 = some h1 ∧
      ∀ r, Grows (exHeap2.deref r) (h1.deref r)) ∧
    (∃ h1, exGroup.Addf exSprintf "env" "%d" [500] exHeap2 = some h1 ∧
      ∀ r, Grows (exHeap2.deref r) (h1.deref r)) ∧
    (∃ h1, exGroup.Merge exOther exHeap2 = some h1 ∧
      ∀ r, Grows (exHeap2.deref r) (h1.deref r)) ∧
    (∃ c1 h1, WithTag exCtx "env" "dev" exHeap2 = some (c1, h1) ∧ c1.Value = some exGroup ∧
      ∀ r, Grows (exHeap2.deref r) (h1.deref r)) ∧
    (∃ c1 h1, WithGroup exCtx exOther exHeap2 = some (c1, h1) ∧ c1.Value = some exGroup ∧
      ∀ r, Grows (exHeap2.deref r) (h1.deref r)) :=
  Group_only_grows exSprintf exGroup exOther exCtx "env" "dev" "%d" [500] exHeap2
    (by decide) (by decide)

/-! ## Aliasing of the Group bound on a context -/

/-- C17: on a context that already has a bound Group (with its map allocated),
`WithTag` completes, and afterwards the Group read back from the original context also
has the key set to the value: the original and the new context give the same Group,
sharing one map object, hence the same tags. -/
theorem WithTag_aliases (ctx : Context) (g : Group) (key value : String) (h : Heap)
    (hv : ctx.Value = some g) (hg : g.tags ≠ none) :
    ∃ ctx2 h1, WithTag ctx key value h = some (ctx2, h1) ∧
    ∃ ga gb, FromContext ctx h1 = some (ga, h1) ∧ FromContext ctx2 h1 = some (gb, h1) ∧
      ga.Lookup key h1 = (value, true) ∧ ga.tags = gb.tags ∧
      (∀ k, ga.Lookup k h1 = gb.Lookup k h1) ∧ ga.Slice h1 = gb.Slice h1 := by
  obtain ⟨h1, e⟩ := h.assign_isSome hg key ⟨key, value⟩
  refine ⟨contextWithGroup ctx g, h1, by simp [WithTag, hv, Group.Add, e], g, g,
    by simp [FromContext, hv], rfl, ?_, rfl, fun _ => rfl, rfl⟩
  rw [Group.Lookup_eq, Heap.deref_assign e, if_pos rfl, AList.lookup_insert]

/-- Witness of C17: adding `service=database` on the context that carries the example
group. -/
theorem WithTag_aliases_witness :
    ∃ ctx2 h1, WithTag exCtx "service" "database" exHeap = some (ctx2, h1) ∧
    ∃ ga gb, FromContext exCtx h1 = some (ga, h1) ∧ FromContext ctx2 h1 = some (gb, h1) ∧
      ga.Lookup "service" h1 = ("database", true) ∧ ga.tags = gb.tags ∧
      (∀ k, ga.Lookup k h1 = gb.Lookup k h1) ∧ ga.Slice h1 = gb.Slice h1 :=
  WithTag_aliases exCtx exGroup "service" "database" exHeap (by decide) (by decide)

/-! ## The key-consistency invariant -/

theorem consistent_init : Heap.init.Consistent := by
  intro r
  cases r <;> exact keyConsistent_empty

theorem NewGroup_consistent {d : Dict} {g : Group} {h h1 : Heap} (hc : h.Consistent)
    (e : NewGroup d h = some (g, h1)) : h1.Consistent := by
  obtain ⟨g2, h2, e2, ht, hd, hframe⟩ := NewGroup_deref d h
  rw [e2] at e
  cases e
  intro r
  cases r with
  | none => exact keyConsistent_empty
  | some a =>
    by_cases ha : a = h.next
    · subst ha
      rw [← ht, hd]
      refine keyConsistent_insertAll keyConsistent_empty _ fun p hp => ?_
      obtain ⟨x, -, rfl⟩ := List.mem_map.1 hp
      rfl
    · show KeyConsistent (h1.cell a)
      rw [hframe a ha]
      exact hc (some a)

theorem Add_consistent {g : Group} {key value : String} {h h1 : Heap} (hc : h.Consistent)
    (e : g.Add key value h = some h1) : h1.Consistent :=
  fun r => Add_keyConsistent e r (hc r)

theorem Addf_consistent {Arg : Type} {sprintf : String → List Arg → String} {g : Group}
    {key format : String} {args : List Arg} {h h1 : Heap} (hc : h.Consistent)
    (e : g.Addf sprintf key format args h = some h1) : h1.Consistent :=
  Add_consistent hc (show g.Add key (sprintf format args) h = some h1 from e)

theorem Merge_consistent {g other : Group} {h h1 : Heap} (hc : h.Consistent)
    (e : g.Merge other h = some h1) : h1.Consistent :=
  fun r => Merge_keyConsistent e r (hc r)

theorem FromContext_consistent {ctx : Context} {g : Group} {h h1 : Heap} (hc : h.Consistent)
    (e : FromContext ctx h = some (g, h1)) : h1.Consistent := by
  unfold FromContext at e
  cases hv : ctx.Value with
  | none =>
    rw [hv] at e
    exact NewGroup_consistent hc e
  | some c =>
    rw [hv] at e
    cases e
    exact hc

theorem WithTag_consistent {ctx c1 : Context} {key value : String} {h h1 : Heap}
    (hc : h.Consistent) (e : WithTag ctx key value h = some (c1, h1)) : h1.Consistent := by
  unfold WithTag at e
  cases hv : ctx.Value with
  | none =>
    rw [hv] at e
    obtain ⟨g, h2, e2⟩ := NewGroup_contents (some (AList.singleton key value)) h
    simp only [e2.1, Option.some.injEq, Prod.mk.injEq] at e
    rw [← e.2]
    exact NewGroup_consistent hc e2.1
  | some c =>
    rw [hv] at e
    cases ha : c.Add key value h with
    | none => simp [ha] at e
    | some h2 =>
      simp only [ha, Option.some.injEq, Prod.mk.injEq] at e
      rw [← e.2]
      exact Add_consistent hc ha

theorem WithGroup_consistent {ctx c1 : Context} {g : Group} {h h1 : Heap}
    (hc : h.Consistent) (e : WithGroup ctx g h = some (c1, h1)) : h1.Consistent := by
  unfold WithGroup at e
  cases hv : ctx.Value with
  | none =>
    rw [hv] at e
    simp only [Option.some.injEq, Prod.mk.injEq] at e
    rw [← e.2]
    exact hc
  | some c =>
    rw [hv] at e
    cases hm : c.Merge g h with
    | none => simp [hm] at e
    | some h2 =>
      simp only [hm, Option.some.injEq, Prod.mk.injEq] at e
      rw [← e.2]
      exact Merge_consistent hc hm

theorem Reachable.consistent {h : Heap} (hr : Reachable h) : h.Consistent := by
  induction hr with
  | init => exact consistent_init
  | newGroup _ e ih => exact NewGroup_consistent ih e
  | add _ e ih => exact Add_consistent ih e
  | addf _ e ih => exact Addf_consistent ih e
  | merge _ e ih => exact Merge_consistent ih e
  | fromContext _ e ih => exact FromContext_consistent ih e
  | withTag _ e ih => exact WithTag_consistent ih e
  | withGroup _ e ih => exact WithGroup_consistent ih e

/-- C20: the key-consistency invariant.  In every heap reached from the initial one
through `NewGroup`, `Add`, `Addf`, `Merge`, `FromContext`, `WithTag` and `WithGroup`,
every entry of the tags map of every Group is stored under the `Key` of its tag; and
each of these operations, run on a heap where the invariant holds, returns a heap where
it holds. -/
theorem key_consistency_invariant :
    (∀ h, Reachable h → ∀ g : Group, ∀ k t,
      (h.deref g.tags).lookup k = some t → t.Key = k) ∧
    (∀ h : Heap, h.Consistent →
      (∀ d g h1, NewGroup d h = some (g, h1) → h1.Consistent) ∧
      (∀ (g : Group) key value h1, g.Add key value h = some h1 → h1.Consistent) ∧
      (∀ (Arg : Type) (sprintf : String → List Arg → String) (g : Group) key format args h1,
        g.Addf sprintf key format args h = some h1 → h1.Consistent) ∧
      (∀ (g other : Group) h1, g.Merge other h = some h1 → h1.Consistent) ∧
      (∀ ctx g h1, FromContext ctx h = some (g, h1) → h1.Consistent) ∧
      (∀ ctx key value c1 h1, WithTag ctx key value h = some (c1, h1) → h1.Consistent) ∧
      (∀ ctx g c1 h1, WithGroup ctx g h = some (c1, h1) → h1.Consistent)) :=
  ⟨fun _ hr g => hr.consistent g.tags,
   fun _ hc => ⟨fun _ _ _ e => NewGroup_consistent hc e,
     fun _ _ _ _ e => Add_consistent hc e,
     fun _ _ _ _ _ _ _ e => Addf_consistent hc e,
     fun _ _ _ e => Merge_consistent hc e,
     fun _ _ _ e => FromContext_consistent hc e,
     fun _ _ _ _ _ e => WithTag_consistent hc e,
     fun _ _ _ _ e => WithGroup_consistent hc e⟩⟩

/-- Witness of C20: the Group that `NewGroup` builds from the example seed on the
initial heap, after `Add("service", "database")`. -/
theorem key_consistency_invariant_witness :
    ∃ g h1 h2, NewGroup exDict Heap.init = some (g, h1) ∧
      g.Add "service" "database" h1 = some h2 ∧
      (h2.deref g.tags).lookup "service" = some ⟨"service", "database"⟩ ∧
      ∀ k t, (h2.deref g.tags).lookup k = some t → t.Key = k :=
  ⟨_, _, _, NewGroup_eq exDict Heap.init, rfl, by decide,
    key_consistency_invariant.1 _
      (@Reachable.add _ _ ⟨some Heap.init.next⟩ "service" "database"
        (Reachable.newGroup Reachable.init (NewGroup_eq exDict Heap.init)) rfl) _⟩

end Tag
